import Mathlib

/-!
Verification of the Chaum-Pedersen zero-knowledge-proof core of
`rust-zkp-chaum-pedersen`, shallowly embedded from `src/src/lib.rs`
(the `ZKP` struct and its methods) and, for the verifier-side session
bookkeeping that is absent from the sources, from the specification.

Big unsigned integers (`BigUint`) are embedded as `ℕ`;
`BigUint::modpow(e, m)` is `b ^ e % m` (the library documents the
result reduced modulo `m`).  `lib.rs` as distributed contains obvious
transcription slips (a duplicated `y1` parameter, `midpow` for
`modpow`, a duplicated `generate_random_number_below`); the embedding
follows the intent fixed unambiguously by the surrounding doc comments
and the test suite.
-/

/-- `BigUint::modpow`: `b ^ e mod m`. -/
def modpow (b e m : ℕ) : ℕ := b ^ e % m

/-- The `ZKP` struct of `lib.rs`: modulus `p`, subgroup order `q`, and
the two public generators `alpha`, `beta`. -/
structure ZKP where
  p : ℕ
  q : ℕ
  alpha : ℕ
  beta : ℕ

/-- `ZKP::compute_pair`: `(alpha^exp mod p, beta^exp mod p)`. -/
def ZKP.compute_pair (z : ZKP) (exp : ℕ) : ℕ × ℕ :=
  (modpow z.alpha exp z.p, modpow z.beta exp z.p)

/-- `ZKP::solve`: if `k ≥ c*x` return `(k - c*x) mod q`
(`(k - c*x).modpow(1, q)`), else return `q - ((c*x - k) mod q)`. -/
def ZKP.solve (z : ZKP) (k c x : ℕ) : ℕ :=
  if c * x ≤ k then modpow (k - c * x) 1 z.q
  else z.q - modpow (c * x - k) 1 z.q

/-- `ZKP::verify`: accept iff `r1 = alpha^s * y1^c mod p` and
`r2 = beta^s * y2^c mod p`, each product reduced by a final
`.modpow(1, p)`. -/
def ZKP.verify (z : ZKP) (r1 r2 y1 y2 c s : ℕ) : Bool :=
  decide (r1 = modpow z.alpha s z.p * modpow y1 c z.p % z.p) &&
  decide (r2 = modpow z.beta s z.p * modpow y2 c z.p % z.p)

/-- The GroupParameters invariant of the spec: `1 < α, β < p`, both
generators of multiplicative order exactly `q` modulo `p`, and `q`
divides `p - 1`. -/
def validParams (z : ZKP) : Prop :=
  1 < z.alpha ∧ z.alpha < z.p ∧ 1 < z.beta ∧ z.beta < z.p ∧
  z.alpha ^ z.q % z.p = 1 ∧
  (∀ m, m < z.q → 0 < m → z.alpha ^ m % z.p ≠ 1) ∧
  z.beta ^ z.q % z.p = 1 ∧
  (∀ m, m < z.q → 0 < m → z.beta ^ m % z.p ≠ 1) ∧
  z.q ∣ z.p - 1

instance (z : ZKP) : Decidable (validParams z) := by
  unfold validParams; infer_instance

/-- The toy test fixture of `tests/random_tests.rs`:
`p = 23, q = 11, α = 4, β = 9`. -/
def zToy : ZKP := ⟨23, 11, 4, 9⟩

/-- The 1024-bit RFC 5114 modulus hard-coded in `ZKP::get_constants`. -/
def pConst : ℕ :=
  0xB10B8F96A080E01DDE92DE5EAE5D54EC52C99FBCFB06A3C69A6A9DCA52D23B616073E28675A23D189838EF1E2EE652C013ECB4AEA906112324975C3CD49B83BFACCBDD7D90C4BD7098488E9C219A73724EFFD6FAE5644738FAA31A4FF55BCCC0A151AF5F0DC8B4BD45BF37DF365C1A65E68CFDA76D4DA708DF1FB2BC2E4A4371

/-- The 160-bit subgroup order hard-coded in `ZKP::get_constants`. -/
def qConst : ℕ := 0xF518AA8781A8DF278ABA4E7D64B7CB9D49462353

/-- The first generator hard-coded in `ZKP::get_constants`. -/
def alphaConst : ℕ :=
  0xA4D1CBD5C3FD34126765A442EFB99905F8104DD258AC507FD6406CFF14266D31266FEA1E5C41564B777E690F5504F213160217B4B01B886A5E91547F9E2749F4D7FBD7D3B9A92EE1909D0D2263F80A76A6A24C087A091F531DBF0A0169B6A28AD662A4D18E73AFA32D779D5918D08BC8858F4DCEF97C2A24855E6EEB22B3B2E5

/-- The fixed exponent used in `ZKP::get_constants` to derive the
second generator (`hex::decode("266FEA1E5C41564B777E69")`). -/
def expConst : ℕ := 0x266FEA1E5C41564B777E69

/-- `ZKP::get_constants`: `(alpha, beta, p, q)` with
`beta = alpha.modpow(exp, p)`. -/
def get_constants : ℕ × ℕ × ℕ × ℕ :=
  (alphaConst, modpow alphaConst expConst pConst, pConst, qConst)

/-! ### Generic modular-arithmetic helper lemmas -/

/-- If `a^q ≡ 1 (mod p)` then powers of `a` only depend on the
exponent modulo `q`. -/
lemma pow_mod_order {a q p : ℕ} (ha : a ^ q ≡ 1 [MOD p]) (e : ℕ) :
    a ^ e ≡ a ^ (e % q) [MOD p] := by
  conv_lhs => rw [← Nat.div_add_mod e q]
  rw [pow_add, pow_mul]
  calc (a ^ q) ^ (e / q) * a ^ (e % q)
      ≡ 1 ^ (e / q) * a ^ (e % q) [MOD p] := (ha.pow _).mul_right _
    _ = a ^ (e % q) := by rw [one_pow, one_mul]

/-- If `a^q ≡ 1 (mod p)` then congruent exponents give congruent
powers. -/
lemma pow_modEq_of_exp_modEq {a q p : ℕ} (ha : a ^ q ≡ 1 [MOD p])
    {e₁ e₂ : ℕ} (he : e₁ ≡ e₂ [MOD q]) : a ^ e₁ ≡ a ^ e₂ [MOD p] := by
  calc a ^ e₁ ≡ a ^ (e₁ % q) [MOD p] := pow_mod_order ha e₁
    _ = a ^ (e₂ % q) := by rw [he]
    _ ≡ a ^ e₂ [MOD p] := (pow_mod_order ha e₂).symm

/-- `solve` is congruent to `k - c·x` modulo `q`, as signed integers. -/
lemma solve_int_modEq (z : ZKP) (k c x : ℕ) (hq : 0 < z.q) :
    (z.solve k c x : ℤ) ≡ (k : ℤ) - (c : ℤ) * (x : ℤ) [ZMOD (z.q : ℤ)] := by
  unfold ZKP.solve modpow
  split
  · rename_i h
    rw [pow_one]
    have hcast : ((k - c * x : ℕ) : ℤ) = (k : ℤ) - (c : ℤ) * (x : ℤ) := by
      push_cast [h]; ring
    calc ((((k - c * x) % z.q : ℕ)) : ℤ)
        = ((k - c * x : ℕ) : ℤ) % (z.q : ℤ) := by push_cast; ring
      _ ≡ ((k - c * x : ℕ) : ℤ) [ZMOD (z.q : ℤ)] := Int.emod_emod_of_dvd _ dvd_rfl
      _ = (k : ℤ) - (c : ℤ) * (x : ℤ) := hcast
  · rename_i h
    push_neg at h
    rw [pow_one]
    have hle : (c * x - k) % z.q ≤ z.q := le_of_lt (Nat.mod_lt _ hq)
    have hcast : ((c * x - k : ℕ) : ℤ) = (c : ℤ) * (x : ℤ) - (k : ℤ) := by
      push_cast [le_of_lt h]; ring
    have step1 : ((z.q - (c * x - k) % z.q : ℕ) : ℤ)
        = (z.q : ℤ) - (((c * x - k : ℕ) : ℤ) % (z.q : ℤ)) := by
      push_cast [hle]; ring
    rw [step1, hcast]
    have h0 : (z.q : ℤ) ≡ 0 [ZMOD (z.q : ℤ)] := Int.modEq_zero_iff_dvd.mpr dvd_rfl
    have h1 : ((c : ℤ) * (x : ℤ) - (k : ℤ)) % (z.q : ℤ)
        ≡ (c : ℤ) * (x : ℤ) - (k : ℤ) [ZMOD (z.q : ℤ)] :=
      Int.emod_emod_of_dvd _ dvd_rfl
    calc (z.q : ℤ) - ((c : ℤ) * (x : ℤ) - (k : ℤ)) % (z.q : ℤ)
        ≡ 0 - ((c : ℤ) * (x : ℤ) - (k : ℤ)) [ZMOD (z.q : ℤ)] := h0.sub h1
      _ = (k : ℤ) - (c : ℤ) * (x : ℤ) := by ring

/-- `solve k c x + c * x` is congruent to `k` modulo `q`: the Nat-level
completeness identity for the response. -/
lemma solve_add_modEq (z : ZKP) (k c x : ℕ) (hq : 0 < z.q) :
    z.solve k c x + c * x ≡ k [MOD z.q] := by
  have h := solve_int_modEq z k c x hq
  have h2 : (z.solve k c x : ℤ) + (c : ℤ) * (x : ℤ) ≡ (k : ℤ) [ZMOD (z.q : ℤ)] := by
    calc (z.solve k c x : ℤ) + (c : ℤ) * (x : ℤ)
        ≡ ((k : ℤ) - (c : ℤ) * (x : ℤ)) + (c : ℤ) * (x : ℤ) [ZMOD (z.q : ℤ)] :=
          h.add_right _
      _ = (k : ℤ) := by ring
  rw [Nat.modEq_iff_dvd]
  have hd := h2.dvd
  push_cast
  push_cast at hd
  convert hd using 1

/-- `verify` unfolded: acceptance is exactly the two reduced-product
equations the code checks. -/
lemma verify_eq_true_iff (z : ZKP) (r1 r2 y1 y2 c s : ℕ) :
    z.verify r1 r2 y1 y2 c s = true ↔
      (r1 = modpow z.alpha s z.p * modpow y1 c z.p % z.p ∧
       r2 = modpow z.beta s z.p * modpow y2 c z.p % z.p) := by
  unfold ZKP.verify
  rw [Bool.and_eq_true, decide_eq_true_eq, decide_eq_true_eq]

/-- The code's reduced product `(a^s mod p) * (y^c mod p) mod p` equals
the spec's `a^s * y^c mod p`. -/
lemma reduced_product_eq (a s y c p : ℕ) :
    modpow a s p * modpow y c p % p = a ^ s * y ^ c % p := by
  unfold modpow
  rw [Nat.mul_mod_mod, Nat.mod_mul_mod]

/-- One side of the verification equation, for `y = a^x mod p`: the
checked value is congruent to `a^(s + x*c)` modulo `p`. -/
lemma check_value_modEq (a s x c p : ℕ) :
    modpow a s p * modpow (modpow a x p) c p % p ≡ a ^ (s + x * c) [MOD p] := by
  unfold modpow
  calc a ^ s % p * ((a ^ x % p) ^ c % p) % p
      ≡ a ^ s % p * ((a ^ x % p) ^ c % p) [MOD p] := Nat.mod_modEq _ _
    _ ≡ a ^ s * (a ^ x) ^ c [MOD p] :=
        Nat.ModEq.mul (Nat.mod_modEq _ _)
          ((Nat.mod_modEq _ _).trans ((Nat.mod_modEq _ _).pow _))
    _ = a ^ (s + x * c) := by rw [← pow_mul, ← pow_add]

/-- If `a^q ≡ 1 (mod p)` and `s + x*c ≡ k (mod q)`, the corresponding
verification equation checked by the code holds. -/
lemma check_accepts {a q p : ℕ} (hp : 1 < p) (ha : a ^ q % p = 1)
    {k s x c : ℕ} (hs : s + x * c ≡ k [MOD q]) :
    modpow a k p = modpow a s p * modpow (modpow a x p) c p % p := by
  have ha' : a ^ q ≡ 1 [MOD p] := by
    unfold Nat.ModEq
    rw [ha, Nat.mod_eq_of_lt hp]
  have h1 : a ^ (s + x * c) ≡ a ^ k [MOD p] := pow_modEq_of_exp_modEq ha' hs
  have h2 := check_value_modEq a s x c p
  calc modpow a k p = a ^ k % p := rfl
    _ = a ^ (s + x * c) % p := h1.symm
    _ = modpow a s p * modpow (modpow a x p) c p % p % p := h2.symm
    _ = modpow a s p * modpow (modpow a x p) c p % p :=
        Nat.mod_mod_of_dvd _ dvd_rfl

/-- C1.  Completeness: for every group-parameter tuple satisfying the
GroupParameters invariant and every `x, k, c ∈ [0, q)`, `verify`
applied to `compute_pair x = (y1, y2)`, `compute_pair k = (r1, r2)`,
the challenge `c` and the response `solve k c x` returns `true`. -/
theorem completeness_in_range (z : ZKP) (x k c : ℕ) (hv : validParams z)
    (hx : x < z.q) (hk : k < z.q) (hc : c < z.q) :
    z.verify (z.compute_pair k).1 (z.compute_pair k).2
      (z.compute_pair x).1 (z.compute_pair x).2 c (z.solve k c x) = true := by
  obtain ⟨hα1, hαp, hβ1, hβp, hαq, -, hβq, -, -⟩ := hv
  have hp : 1 < z.p := lt_trans hα1 hαp
  have hq : 0 < z.q := by omega
  have hs : z.solve k c x + x * c ≡ k [MOD z.q] := by
    have h := solve_add_modEq z k c x hq
    rwa [mul_comm c x] at h
  rw [verify_eq_true_iff]
  simp only [ZKP.compute_pair]
  exact ⟨check_accepts hp hαq hs, check_accepts hp hβq hs⟩

/-- Witness for C1 at the toy group with `x = 6, k = 3, c = 2`. -/
theorem completeness_in_range_witness :
    (validParams zToy ∧ 6 < zToy.q ∧ 3 < zToy.q ∧ 2 < zToy.q) ∧
    zToy.verify (zToy.compute_pair 3).1 (zToy.compute_pair 3).2
      (zToy.compute_pair 6).1 (zToy.compute_pair 6).2 2 (zToy.solve 3 2 6) = true :=
  ⟨⟨by decide, by decide, by decide, by decide⟩,
   completeness_in_range zToy 6 3 2 (by decide) (by decide) (by decide) (by decide)⟩

/-- C2 counterexample: with `q = 11`, `k = 1`, `c = 4`, `x = 3` we have
`k < c·x` and `(c·x − k) % q = 0`, so `solve` returns `q = 11` itself —
not a residue in `[0, q)` as the claim states. -/
theorem solve_escapes_half_open_interval : ¬ zToy.solve 1 4 3 < zToy.q := by
  decide

/-- C2 amended: `solve k c x` is always congruent to `k − c·x` modulo
`q` as signed integers, and lies in the closed interval `[0, q]`; it
equals `q` (the single value outside `[0, q)`) exactly when `k < c·x`
and `q` divides `c·x − k`. -/
theorem solve_congruent_and_bounded (z : ZKP) (k c x : ℕ) (hq : 0 < z.q) :
    (z.solve k c x : ℤ) ≡ (k : ℤ) - (c : ℤ) * (x : ℤ) [ZMOD (z.q : ℤ)] ∧
    z.solve k c x ≤ z.q ∧
    (z.solve k c x = z.q ↔ k < c * x ∧ (c * x - k) % z.q = 0) := by
  refine ⟨solve_int_modEq z k c x hq, ?_⟩
  unfold ZKP.solve modpow
  split
  · rename_i h
    rw [pow_one]
    have h1 := Nat.mod_lt (k - c * x) hq
    refine ⟨le_of_lt h1, ?_, ?_⟩
    · intro he; omega
    · rintro ⟨hlt, -⟩; omega
  · rename_i h
    rw [pow_one]
    have h1 := Nat.mod_lt (c * x - k) hq
    refine ⟨by omega, ?_, ?_⟩
    · intro he
      exact ⟨by omega, by omega⟩
    · rintro ⟨-, hz⟩; omega

/-- Witness for C2's amended statement at `q = 11`, `k = 1`, `c = 4`,
`x = 3` (the very input of the counterexample). -/
theorem solve_congruent_and_bounded_witness :
    0 < zToy.q ∧
    ((zToy.solve 1 4 3 : ℤ) ≡ (1 : ℤ) - (4 : ℤ) * (3 : ℤ) [ZMOD (zToy.q : ℤ)] ∧
     zToy.solve 1 4 3 ≤ zToy.q ∧
     (zToy.solve 1 4 3 = zToy.q ↔ 1 < 4 * 3 ∧ (4 * 3 - 1) % zToy.q = 0)) :=
  ⟨by decide, solve_congruent_and_bounded zToy 1 4 3 (by decide)⟩

/-- C3.  `verify` returns `true` iff both equations
`r1 = α^s · y1^c mod p` and `r2 = β^s · y2^c mod p` hold; in
particular it never accepts when only one of the two holds. -/
theorem verify_iff_both_equations (z : ZKP) (r1 r2 y1 y2 c s : ℕ) :
    z.verify r1 r2 y1 y2 c s = true ↔
      (r1 = z.alpha ^ s * y1 ^ c % z.p ∧ r2 = z.beta ^ s * y2 ^ c % z.p) := by
  rw [verify_eq_true_iff, reduced_product_eq, reduced_product_eq]

/-- C6.  The concrete toy scenario of the spec: `p = 23, q = 11, α = 4,
β = 9, x = 6, k = 3, c = 2` produces the listed protocol values and
`verify` accepts. -/
theorem toy_scenario_accepts :
    zToy.compute_pair 6 = (4 ^ 6 % 23, 9 ^ 6 % 23) ∧
    zToy.compute_pair 3 = (4 ^ 3 % 23, 9 ^ 3 % 23) ∧
    (zToy.solve 3 2 6 : ℤ) = ((3 : ℤ) - 2 * 6) % 11 ∧
    zToy.verify (zToy.compute_pair 3).1 (zToy.compute_pair 3).2
      (zToy.compute_pair 6).1 (zToy.compute_pair 6).2 2 (zToy.solve 3 2 6) = true := by
  refine ⟨by decide, by decide, by decide, by decide⟩

set_option exponentiation.threshold 1100 in
set_option maxRecDepth 2000 in
/-- C8.  The hard-coded default parameters are of cryptographic size:
`p ≥ 2^1023`, `q ≥ 2^159`, and `q` divides `p − 1`. -/
theorem constants_cryptographic_size :
    2 ^ 1023 ≤ get_constants.2.2.1 ∧ 2 ^ 159 ≤ get_constants.2.2.2 ∧
    get_constants.2.2.2 ∣ get_constants.2.2.1 - 1 := by
  refine ⟨by decide, by decide, by decide⟩

/-- C10.  `get_constants` always returns the one fixed tuple
`(α, β, p, q)`, and in it `β = α^w mod p` for the hard-coded exponent
`w = 0x266FEA1E5C41564B777E69`, so the discrete log of `β` to base `α`
is a publicly known constant. -/
theorem beta_from_known_exponent :
    get_constants =
      (alphaConst, modpow alphaConst 0x266FEA1E5C41564B777E69 pConst, pConst, qConst) :=
  rfl

/-- A base whose `q`-th power is `1` modulo `p` is coprime to `p`. -/
lemma coprime_of_pow_mod_one {a q p : ℕ} (hq : 0 < q) (ha : a ^ q % p = 1) :
    Nat.Coprime a p := by
  have h1 : Nat.Coprime (a ^ q) p := by
    unfold Nat.Coprime
    rw [Nat.gcd_comm, Nat.gcd_rec, ha, Nat.gcd_one_left]
  exact (Nat.coprime_pow_left_iff hq a p).mp h1

/-- If `a` has exact multiplicative order `q` modulo `p` and two of its
powers with exponents below `q` agree modulo `p`, the exponents are
equal. -/
lemma exp_eq_of_pow_modEq_aux {a q p : ℕ} (hp : 1 < p) (hq : 0 < q)
    (ha : a ^ q % p = 1) (hord : ∀ m, m < q → 0 < m → a ^ m % p ≠ 1)
    {u v : ℕ} (huv : u ≤ v) (hv : v < q) (h : a ^ u ≡ a ^ v [MOD p]) :
    u = v := by
  have hcop : Nat.Coprime a p := coprime_of_pow_mod_one hq ha
  have hc2 : Nat.gcd p (a ^ u) = 1 := by
    rw [Nat.gcd_comm]
    exact hcop.pow_left u
  have h' : a ^ u * 1 ≡ a ^ u * a ^ (v - u) [MOD p] := by
    rw [mul_one, ← pow_add, Nat.add_sub_cancel' huv]
    exact h
  have h2 : (1 : ℕ) ≡ a ^ (v - u) [MOD p] :=
    Nat.ModEq.cancel_left_of_coprime hc2 h'
  by_contra hne
  have hpos : 0 < v - u := by omega
  have hmod : a ^ (v - u) % p = 1 := by
    have h3 := h2.symm
    unfold Nat.ModEq at h3
    rwa [Nat.mod_eq_of_lt hp] at h3
  exact hord (v - u) (lt_of_le_of_lt (Nat.sub_le v u) hv) hpos hmod

/-- Exact order `q` makes exponents of congruent powers congruent
modulo `q`: the injectivity direction used for soundness. -/
lemma exp_modEq_of_pow_modEq {a q p : ℕ} (hp : 1 < p) (hq : 0 < q)
    (ha : a ^ q % p = 1) (hord : ∀ m, m < q → 0 < m → a ^ m % p ≠ 1)
    {e₁ e₂ : ℕ} (h : a ^ e₁ ≡ a ^ e₂ [MOD p]) : e₁ ≡ e₂ [MOD q] := by
  have ha' : a ^ q ≡ 1 [MOD p] := by
    unfold Nat.ModEq
    rw [ha, Nat.mod_eq_of_lt hp]
  have hred : a ^ (e₁ % q) ≡ a ^ (e₂ % q) [MOD p] :=
    ((pow_mod_order ha' e₁).symm.trans h).trans (pow_mod_order ha' e₂)
  have hq1 : e₁ % q < q := Nat.mod_lt _ hq
  have hq2 : e₂ % q < q := Nat.mod_lt _ hq
  unfold Nat.ModEq
  rcases Nat.le_total (e₁ % q) (e₂ % q) with hle | hle
  · exact exp_eq_of_pow_modEq_aux hp hq ha hord hle hq2 hred
  · exact (exp_eq_of_pow_modEq_aux hp hq ha hord hle hq1 hred.symm).symm

/-- C4.  Soundness: for valid parameters, distinct secrets `x ≢ x'`
(mod `q`) and any nonce `k`, the set of challenges `c ∈ [0, q)` on
which `verify` accepts the response `solve k c x'` against commitments
derived from `x` is contained in the set of solutions of
`c·x ≡ c·x' (mod q)` — the negligible solution set of
`c·(x − x') ≡ 0 (mod q)`. -/
theorem soundness_accepting_challenges_subset (z : ZKP) (x x' k : ℕ)
    (hv : validParams z) (hx : x < z.q) (hx' : x' < z.q) (hk : k < z.q)
    (hne : ¬ x ≡ x' [MOD z.q]) :
    Finset.filter
        (fun c => z.verify (z.compute_pair k).1 (z.compute_pair k).2
          (z.compute_pair x).1 (z.compute_pair x).2 c (z.solve k c x') = true)
        (Finset.range z.q) ⊆
      Finset.filter (fun c => c * x % z.q = c * x' % z.q)
        (Finset.range z.q) := by
  intro c hc
  rw [Finset.mem_filter] at hc ⊢
  obtain ⟨hcr, hacc⟩ := hc
  refine ⟨hcr, ?_⟩
  obtain ⟨hα1, hαp, -, -, hαq, hαord, -, -, -⟩ := hv
  have hp : 1 < z.p := lt_trans hα1 hαp
  have hq : 0 < z.q := by omega
  set s := z.solve k c x' with hs
  rw [verify_eq_true_iff] at hacc
  simp only [ZKP.compute_pair] at hacc
  have e1 : modpow z.alpha k z.p =
      modpow z.alpha s z.p * modpow (modpow z.alpha x z.p) c z.p % z.p :=
    hacc.1
  have hpow : z.alpha ^ k ≡ z.alpha ^ (s + x * c) [MOD z.p] := by
    calc z.alpha ^ k
        ≡ z.alpha ^ k % z.p [MOD z.p] := (Nat.mod_modEq _ _).symm
      _ = modpow z.alpha s z.p * modpow (modpow z.alpha x z.p) c z.p % z.p :=
          e1
      _ ≡ z.alpha ^ (s + x * c) [MOD z.p] := check_value_modEq _ _ _ _ _
  have hexp : k ≡ s + x * c [MOD z.q] :=
    exp_modEq_of_pow_modEq hp hq hαq hαord hpow
  have hid : s + x' * c ≡ k [MOD z.q] := by
    have h := solve_add_modEq z k c x' hq
    rwa [mul_comm c x'] at h
  have hxx : s + x * c ≡ s + x' * c [MOD z.q] := (hexp.symm.trans hid.symm)
  have hcan : x * c ≡ x' * c [MOD z.q] := Nat.ModEq.add_left_cancel' s hxx
  have : c * x ≡ c * x' [MOD z.q] := by
    rwa [mul_comm x c, mul_comm x' c] at hcan
  exact this

/-- Witness for C4 at the toy group with `x = 6`, `x' = 5`, `k = 3`. -/
theorem soundness_accepting_challenges_subset_witness :
    (validParams zToy ∧ 6 < zToy.q ∧ 5 < zToy.q ∧ 3 < zToy.q ∧
      ¬ 6 ≡ 5 [MOD zToy.q]) ∧
    Finset.filter
        (fun c => zToy.verify (zToy.compute_pair 3).1 (zToy.compute_pair 3).2
          (zToy.compute_pair 6).1 (zToy.compute_pair 6).2 c
          (zToy.solve 3 c 5) = true)
        (Finset.range zToy.q) ⊆
      Finset.filter (fun c => c * 6 % zToy.q = c * 5 % zToy.q)
        (Finset.range zToy.q) :=
  ⟨⟨by decide, by decide, by decide, by decide, by decide⟩,
   soundness_accepting_challenges_subset zToy 6 5 3 (by decide) (by decide)
     (by decide) (by decide) (by decide)⟩

/-! ### Verifier-side session bookkeeping

The gRPC server implementing the verifier (session registry,
`create_authentication_challenge` / `verify_authentication` handlers)
is not among the shipped sources — `server.rs` is the prover-side
client, and the spec notes the server methods are placeholders.  The
registry is therefore modelled from the specification (§4.4). -/

/-- Modelled from the spec: the `PendingChallenge` record stored by the
verifier for an in-flight authentication attempt — the username, the
prover's commitment `(r1, r2)`, and the issued challenge `c`.  The
server implementation holding it is absent from `src/`. -/
structure PendingChallenge where
  username : String
  r1 : ℕ
  r2 : ℕ
  c : ℕ

/-- Modelled from the spec: the verifier's shared state — registered
users with their public commitments, and pending challenges keyed by
opaque auth-id.  The server implementation is absent from `src/`. -/
structure RegistryState where
  users : List (String × ℕ × ℕ)
  pending : List (String × PendingChallenge)

/-- Modelled from the spec: the error kinds of §7 relevant to the
session registry. -/
inductive AuthError where
  | UserNotFound
  | ChallengeNotFound
  | BadSolution
deriving DecidableEq

/-- First value stored under `key` in an association list. -/
def lookupEntry {β : Type} (key : String) : List (String × β) → Option β
  | [] => none
  | e :: rest => if e.1 = key then some e.2 else lookupEntry key rest

/-- Remove every entry stored under `key`. -/
def removeEntry {β : Type} (key : String) (l : List (String × β)) :
    List (String × β) :=
  l.filter (fun e => decide (e.1 ≠ key))

lemma lookupEntry_removeEntry {β : Type} (key : String)
    (l : List (String × β)) : lookupEntry key (removeEntry key l) = none := by
  induction l with
  | nil => rfl
  | cons e rest ih =>
    unfold removeEntry at ih ⊢
    rw [List.filter]
    by_cases h : e.1 = key
    · rw [decide_eq_false (by simp [h])]
      exact ih
    · rw [decide_eq_true (by simp [h])]
      rw [lookupEntry]
      simp only [h, if_false]
      exact ih

/-- Modelled from the spec: `finish_challenge(auth_id, s)` — absent
from `src/`.  Fails with `ChallengeNotFound` when `auth_id` has no
pending entry; otherwise consumes the pending entry, runs
`ProofEngine.verify` against the registered commitment, and returns a
fresh session id on success or `BadSolution` on failure.  Randomness
(the fresh session id) is supplied as an explicit argument. -/
def finish_challenge (z : ZKP) (st : RegistryState) (auth_id : String)
    (s : ℕ) (fresh_session : String) :
    Except AuthError String × RegistryState :=
  match lookupEntry auth_id st.pending with
  | none => (Except.error AuthError.ChallengeNotFound, st)
  | some pc =>
    let st' : RegistryState := ⟨st.users, removeEntry auth_id st.pending⟩
    match lookupEntry pc.username st.users with
    | none => (Except.error AuthError.BadSolution, st')
    | some yv =>
      if z.verify pc.r1 pc.r2 yv.1 yv.2 pc.c s then
        (Except.ok fresh_session, st')
      else
        (Except.error AuthError.BadSolution, st')

/-- After any `finish_challenge` call, no pending entry remains under
the used auth-id. -/
lemma finish_challenge_consumes (z : ZKP) (st : RegistryState)
    (auth_id : String) (s : ℕ) (sid : String) :
    lookupEntry auth_id ((finish_challenge z st auth_id s sid).2).pending
      = none := by
  unfold finish_challenge
  split
  · rename_i hl
    exact hl
  · rename_i pc hl
    dsimp only
    split
    · exact lookupEntry_removeEntry auth_id st.pending
    · split
      · exact lookupEntry_removeEntry auth_id st.pending
      · exact lookupEntry_removeEntry auth_id st.pending

/-- C5.  Single-use challenge: every completed `finish_challenge` call —
whether verification succeeded or failed — leaves no pending entry for
its auth-id, so a second `finish_challenge` with the same auth-id fails
with `ChallengeNotFound`. -/
theorem finish_challenge_single_use (z : ZKP) (st : RegistryState)
    (auth_id : String) (s s' : ℕ) (sid sid' : String) :
    lookupEntry auth_id ((finish_challenge z st auth_id s sid).2).pending
        = none ∧
    (finish_challenge z ((finish_challenge z st auth_id s sid).2)
        auth_id s' sid').1 = Except.error AuthError.ChallengeNotFound := by
  set st2 := (finish_challenge z st auth_id s sid).2 with hst2
  have h : lookupEntry auth_id st2.pending = none := by
    rw [hst2]
    exact finish_challenge_consumes z st auth_id s sid
  refine ⟨h, ?_⟩
  unfold finish_challenge
  rw [h]

/-! ### Byte-level encoding at the transport boundary -/

/-- Modelled from the spec: `BigUint::to_bytes_be` — library code, not
in `src/` — returns the canonical minimal big-endian base-256 digit
string of `v` (the single byte `0` for `v = 0`). -/
def to_bytes_be (v : ℕ) : List ℕ :=
  if v = 0 then [0] else (Nat.digits 256 v).reverse

/-- Modelled from the spec: `BigUint::from_bytes_be` — library code,
not in `src/` — reads a big-endian unsigned base-256 digit string. -/
def from_bytes_be (l : List ℕ) : ℕ := Nat.ofDigits 256 l.reverse

/-- C7.  Round-trip encoding: decoding the big-endian unsigned byte
encoding of any non-negative integer `v` (in particular any `v ∈ [0,p)`)
yields `v` again. -/
theorem bytes_roundtrip (v : ℕ) : from_bytes_be (to_bytes_be v) = v := by
  unfold from_bytes_be to_bytes_be
  split
  · rename_i h
    simp [Nat.ofDigits, h]
  · rw [List.reverse_reverse, Nat.ofDigits_digits]

/-! ### Random number generation -/

/-- `ZKP::generate_random_number_below`, a wrapper around
`rand`'s `gen_biguint_below`: randomness is modelled by an explicit
`entropy` argument, and the library's panic on a zero bound is
modelled as `none`; for a positive bound the library returns a value
uniformly below the bound, modelled as `entropy % bound`. -/
def generate_random_number_below (bound entropy : ℕ) : Option ℕ :=
  if bound = 0 then none else some (entropy % bound)

/-- C9.  For bound `0`, `generate_random_number_below` fails rather
than returning a value; for every positive bound it returns a value in
`[0, bound)`. -/
theorem random_below_in_range (bound entropy : ℕ) :
    (bound = 0 → generate_random_number_below bound entropy = none) ∧
    (0 < bound → ∃ v, generate_random_number_below bound entropy = some v ∧
      v < bound) := by
  constructor
  · intro h
    simp [generate_random_number_below, h]
  · intro h
    refine ⟨entropy % bound, ?_, Nat.mod_lt _ h⟩
    simp [generate_random_number_below, Nat.pos_iff_ne_zero.mp h]

/-- Witness for C9 at bounds `0` and `5`. -/
theorem random_below_in_range_witness :
    generate_random_number_below 0 3 = none ∧
    ∃ v, generate_random_number_below 5 7 = some v ∧ v < 5 :=
  ⟨(random_below_in_range 0 3).1 rfl, (random_below_in_range 5 7).2 (by decide)⟩
